import Mathlib

/-!
Verification development for the NVONFeeder repository (`feeder/nvonsim.py`).

The Python code is shallowly embedded:
* Python `dict`s are association lists that keep insertion order; assignment
  `d[k] = v` is `dinsert`, which replaces the value at the first occurrence of
  `k` in place or appends a fresh key at the end, exactly as CPython does.
* `dict.update` is `bupdate`: the new dict's items are assigned one by one.
* `sorted(d.items())` is `sortPairs`, an insertion sort on the key; the dicts
  it is applied to never contain a duplicate key, so comparing keys alone
  agrees with Python's lexicographic comparison of `(key, value)` tuples.
* Exceptions (`ValueError` from `int`/`float`/`min`, `IndexError` from token
  indexing, `KeyError`, missing files) abort the enclosing call, so fallible
  operations return `Option` and any failure makes the whole result `none`.
* `float` values are modelled as `Rat` with a decimal-notation parser; no
  claim depends on binary floating point.
-/

namespace NVON

/-- Python dict assignment `d[k] = v` on an insertion-ordered association
list: replace the value at the first occurrence of `k`, keeping its position,
or append `(k, v)` at the end when `k` is absent. -/

def dinsert {κ α : Type} [DecidableEq κ] (k : κ) (v : α) : List (κ × α) → List (κ × α)
  | [] => [(k, v)]
  | q :: l => if q.1 = k then (k, v) :: l else q :: dinsert k v l

/-- Python `base.update(new)`: assign every item of `new` into `base`, in
`new`'s iteration order. -/

def bupdate {κ α : Type} [DecidableEq κ] (base new : List (κ × α)) : List (κ × α) :=
  new.foldl (fun acc p => dinsert p.1 p.2 acc) base

/-- The keys of a dict after one assignment: unchanged when the key is
present, appended otherwise. -/

def insKey {κ : Type} [DecidableEq κ] (k : κ) (ks : List κ) : List κ :=
  if k ∈ ks then ks else ks ++ [k]

/-- Python dict read `d[k]`: the value at key `k`, `none` when absent
(a `KeyError` aborts the enclosing call). -/

def dlookup {κ α : Type} [DecidableEq κ] (k : κ) : List (κ × α) → Option α
  | [] => none
  | q :: l => if q.1 = k then some q.2 else dlookup k l

/-- Insert one `(runId, value)` item into a list already ascending in the
run-identifier component. -/

def insPair {α : Type} (p : Nat × α) : List (Nat × α) → List (Nat × α)
  | [] => [p]
  | q :: l => if p.1 ≤ q.1 then p :: q :: l else q :: insPair p l

/-- Model of `sorted(d.items())` for the run-id-keyed dicts of `processStats`: those
dicts never hold a duplicate key, so sorting on the key alone agrees with
Python's lexicographic comparison of the item tuples. -/

def sortPairs {α : Type} : List (Nat × α) → List (Nat × α)
  | [] => []
  | p :: l => insPair p (sortPairs l)

/-- The function `insPair` on the key component alone. -/

def insNat (k : Nat) : List Nat → List Nat
  | [] => [k]
  | a :: l => if k ≤ a then k :: a :: l else a :: insNat k l

/-- The function `sortPairs` on the key component alone. -/

def sortNat : List Nat → List Nat
  | [] => []
  | k :: l => insNat k (sortNat l)

/-- The run-id components of two items are in weak ascending order. -/

def keyLe {α : Type} (p q : Nat × α) : Prop := p.1 ≤ q.1

/-- The run-id components of two items are in strict ascending order. -/

def keyLt {α : Type} (p q : Nat × α) : Prop := p.1 < q.1

instance keyLtAntisymm {α : Type} : IsAntisymm (Nat × α) keyLt :=
  ⟨fun _ _ hab hba => absurd (Nat.lt_trans hab hba) (Nat.lt_irrefl _)⟩

/-- One raw entry appended by `spawnProcess`: the execution id assigned by
`startSim`, paired with the whitespace-split tokens of the simulator's
captured standard output (`stats.append((id, result.stdout.split()))`). -/

structure RawStat where
  id : Nat
  tokens : List String
deriving DecidableEq

/-- Consume a run of decimal digits, accumulating their value; any other
character is a parse failure. -/

def parseDigits (acc : Nat) : List Char → Option Nat
  | [] => some acc
  | c :: cs => if c.isDigit then parseDigits (acc * 10 + (c.toNat - 48)) cs else none

/-- Model of Python `int(token)`: an optional minus sign followed by at
least one decimal digit; anything else raises `ValueError`, hence `none`. -/

def parseInt? (s : String) : Option Int :=
  match s.data with
  | '-' :: c :: cs =>
    if c.isDigit then (parseDigits (c.toNat - 48) cs).map (fun n => -(n : Int)) else none
  | c :: cs =>
    if c.isDigit then (parseDigits (c.toNat - 48) cs).map (fun n => (n : Int)) else none
  | [] => none

/-- The digits after the decimal point: numerator and power-of-ten
denominator of the fractional part. -/

def fracDigits (num den : Nat) : List Char → Option (Nat × Nat)
  | [] => some (num, den)
  | c :: cs => if c.isDigit then fracDigits (num * 10 + (c.toNat - 48)) (den * 10) cs else none

/-- The unsigned part of a decimal float token: a digit run, optionally
followed by a dot and further digits (`"17"`, `"0.25"`, `"3."`). -/

def parseMantissa (acc : Nat) : List Char → Option Rat
  | [] => some acc
  | '.' :: cs => (fracDigits 0 1 cs).map fun p => (acc : Rat) + (p.1 : Rat) / (p.2 : Rat)
  | c :: cs => if c.isDigit then parseMantissa (acc * 10 + (c.toNat - 48)) cs else none

/-- Decimal-notation model of Python `float(token)`: an optionally signed
decimal mantissa; `none` when the token does not parse (Python raises
`ValueError`). No claim depends on binary floating point, so the value is a
`Rat`. -/

def parseFloat? (s : String) : Option Rat :=
  match s.data with
  | '-' :: c :: cs =>
    if c.isDigit then (parseMantissa (c.toNat - 48) cs).map Neg.neg else none
  | c :: cs => if c.isDigit then parseMantissa (c.toNat - 48) cs else none
  | [] => none

/-- The fields `processStats` reads out of one raw entry: the run id
`int(stat[0])`, the results path `stat[1][0]`, the total time
`int(stat[1][1])` and the utilization `float(stat[1][2])`. A missing token
(`IndexError`) or failed conversion (`ValueError`) raises in Python. -/

def parseStat (r : RawStat) : Option (Nat × String × Int × Rat) :=
  match r.tokens with
  | t0 :: t1 :: t2 :: _ =>
    match parseInt? t1, parseFloat? t2 with
    | some n, some u => some (r.id, t0, n, u)
    | _, _ => none
  | _ => none

/-- Read the fields of every raw entry in iteration order. In Python the
first malformed entry raises out of `processStats` before any partial dict
escapes, so one failure makes the whole result `none`. -/

def parseAll : List RawStat → Option (List (Nat × String × Int × Rat))
  | [] => some []
  | r :: rest =>
    match parseStat r, parseAll rest with
    | some p, some ps => some (p :: ps)
    | _, _ => none

/-- The value `processStats` returns: the dict `tStats` with its three
run-id-keyed member dicts, in the state the source leaves them in —
`totalSec` and `meanUtil` rebuilt as `OrderedDict(sorted(...))`, `traceFile`
kept in raw insertion order. -/

structure WindowStats where
  totalSec : List (Nat × Int)
  meanUtil : List (Nat × Rat)
  traceFile : List (Nat × String)
deriving DecidableEq

/-- The dict-building loop of `processStats` for one of the three member
dicts: starting from `{}`, assign `d[id] = f(stat)` for each row in
iteration order. -/

def buildDict {β : Type} (f : Nat × String × Int × Rat → β)
    (rows : List (Nat × String × Int × Rat)) : List (Nat × β) :=
  rows.foldl (fun d p => dinsert p.1 (f p) d) []

/-- Embedding of `processStats(stats)` from `feeder/nvonsim.py`: build the three dicts
keyed by run id, then sort `meanUtil` and `totalSec` into `OrderedDict`s;
`traceFile` is left unsorted. Field extraction happens inside the same loop
in the source, but a single failure aborts the whole call there, so parsing
is factored out in front of the (observably identical) dict building. -/

def processStats (stats : List RawStat) : Option WindowStats :=
  (parseAll stats).map fun rows =>
    { totalSec := sortPairs (buildDict (fun p => p.2.2.1) rows)
      meanUtil := sortPairs (buildDict (fun p => p.2.2.2) rows)
      traceFile := buildDict (fun p => p.2.1) rows }

/-- Python `min(iterable)`: a left fold of binary `min` over the values,
raising `ValueError` on an empty iterable. -/

def listMin : List Int → Option Int
  | [] => none
  | x :: xs => some (xs.foldl min x)

/-- Embedding of `getBest(tStats)` from `feeder/nvonsim.py`: take the minimum of
`totalSec.values()` (raises on empty), scan `totalSec.items()` in iteration
order for the first key attaining it, and return that key's trace file, the
minimum, and the key. The unbound-variable case after a fruitless scan and a
`KeyError` on `traceFile` are both aborts, hence `none`. -/

def getBest (t : WindowStats) : Option (String × Int × Nat) :=
  match listMin (t.totalSec.map Prod.snd) with
  | none => none
  | some m =>
    match t.totalSec.find? (fun p => p.2 == m) with
    | none => none
    | some p =>
      match dlookup p.1 t.traceFile with
      | none => none
      | some f => some (f, m, p.1)

/-- A seed bundle: the JSON object stored in a `winInitTrace_<i>.json` file
or in a winning trace file, as an insertion-ordered key→value map. -/

abbrev Bundle : Type := List (String × String)

/-- The window-0 tail of the driver: load the winning trace's bundle
(`json.load` of `bestTrace`) and dump it unchanged as the seed for window 1;
a missing file is a fatal exit. `readB` abstracts the file system: it maps a
path to the bundle stored there, `none` when absent. -/

def window0Seed (readB : String → Option Bundle) (stats : List RawStat) : Option Bundle :=
  (processStats stats).bind fun ws =>
    (getBest ws).bind fun b => readB b.1

/-- The loop body of the driver for windows `i ≥ 1`, with file round-trips
abstracted: given the cumulative bundle `prev` written for this window,
aggregate, select the best trace, load its bundle, and produce
`prev.update(bundle)` as the seed for the next window. Fatal exits
(`exit(-1)`, `exit(-2)`, the selector raising) are `none`. -/

def windowStep (readB : String → Option Bundle) (prev : Bundle)
    (stats : List RawStat) : Option Bundle :=
  (processStats stats).bind fun ws =>
    (getBest ws).bind fun b =>
      (readB b.1).map fun win => bupdate prev win

/-- The cumulative seed chain: `cumulativeSeed wins i` is the bundle dumped
into `winInitTrace_<i+1>.json` when window `j`'s winning bundle is `wins j`.
Window 0 dumps the winner's bundle unchanged; each later window updates the
previously dumped bundle with its winner's entries (`json` file round-trips
preserve the mapping and are modelled as identity). -/

def cumulativeSeed (wins : Nat → Bundle) : Nat → Bundle
  | 0 => wins 0
  | i + 1 => bupdate (cumulativeSeed wins i) (wins (i + 1))

/-- One parsed row of the aggregation loop. -/

abbrev Row : Type := Nat × String × Int × Rat

/-- The effect of the dict-building loop on the key sequence alone. -/

def foldKeys (ks : List Nat) : List Nat → List Nat
  | [] => ks
  | k :: rest => foldKeys (insKey k ks) rest

/-- Status of one task submitted to the pool by `startSim`. -/

inductive TStatus : Type
  | pending
  | running
  | done
deriving DecidableEq

/-- State of the worker pool during one window: the status of each of the
`N` submitted tasks, and the manager-guarded shared `stats` list that
finished tasks append to. -/

structure PoolState where
  status : Nat → TStatus
  stats : List (Nat × List String)

/-- The pool right after `startSim` has submitted all `N` tasks: everything
queued, `stats` empty. -/

def poolInit : PoolState :=
  { status := fun _ => TStatus.pending, stats := [] }

/-- Number of tasks currently executing in the pool. -/

def countRunning (N : Nat) (s : PoolState) : Nat :=
  ((List.range N).filter (fun i => decide (s.status i = TStatus.running))).length

/-- One scheduling event of `multiprocessing.Pool(cores)` running the `N`
tasks `startSim` submitted, where `out i` is the captured stdout token list
of run `i`. A queued task starts only while fewer than `cores` workers are
busy (the pool's worker bound); a finishing task appends its `(id, tokens)`
entry to the shared `stats` list under the manager lock, exactly once
(`spawnProcess` has a single unconditional append). -/

inductive PoolStep (cores N : Nat) (out : Nat → List String) :
    PoolState → PoolState → Prop
  | start (s : PoolState) (i : Nat) (hi : i < N)
      (hp : s.status i = TStatus.pending)
      (hc : countRunning N s < cores) :
      PoolStep cores N out s
        { status := fun j => if j = i then TStatus.running else s.status j,
          stats := s.stats }
  | finish (s : PoolState) (i : Nat) (hi : i < N)
      (hr : s.status i = TStatus.running) :
      PoolStep cores N out s
        { status := fun j => if j = i then TStatus.done else s.status j,
          stats := s.stats ++ [(i, out i)] }

/-- Every task has completed: the condition `pool.join` blocks on before
`startSim` returns the shared list. -/

def allDone (N : Nat) (s : PoolState) : Prop :=
  ∀ i, i < N → s.status i = TStatus.done

/-! Concrete executions of the embedded operations, used to instantiate the
statements above. -/

def stats1ex : List RawStat :=
  [⟨0, ["t0", "42", "1"]⟩, ⟨1, ["t1", "17", "1"]⟩, ⟨2, ["t2", "17", "1"]⟩]

def ws1ex : WindowStats :=
  ⟨[(0, 42), (1, 17), (2, 17)], [(0, 1), (1, 1), (2, 1)],
    [(0, "t0"), (1, "t1"), (2, "t2")]⟩

def readBex : String → Option Bundle :=
  fun s => if s = "w0.json" then some [("j1", "A")] else none

def stats2ex : List RawStat := [⟨0, ["w0.json", "10", "1"]⟩]

def ws2ex : WindowStats := ⟨[(0, 10)], [(0, 1)], [(0, "w0.json")]⟩

def winsEx : Nat → Bundle :=
  fun j => if j = 0 then [("j1", "A")] else if j = 1 then [("j2", "B")] else []

def stats5aex : List RawStat :=
  [⟨2, ["u2", "17", "1"]⟩, ⟨0, ["u0", "42", "1"]⟩, ⟨1, ["u1", "17", "1"]⟩]

def stats5bex : List RawStat :=
  [⟨0, ["u0", "42", "1"]⟩, ⟨1, ["u1", "17", "1"]⟩, ⟨2, ["u2", "17", "1"]⟩]

def stats6ex : List RawStat := [⟨0, ["a0", "5", "1"]⟩, ⟨1, ["a1", "3", "1"]⟩]

def ws6ex : WindowStats := ⟨[(0, 5), (1, 3)], [(0, 1), (1, 1)], [(0, "a0"), (1, "a1")]⟩

def stats7ex : List RawStat := [⟨1, ["b1", "9", "1"]⟩, ⟨0, ["b0", "8", "1"]⟩]

def ws7ex : WindowStats := ⟨[(0, 8), (1, 9)], [(0, 1), (1, 1)], [(1, "b1"), (0, "b0")]⟩

def poolOutEx : Nat → List String := fun _ => ["r.txt", "1", "1"]

def poolMidEx : PoolState :=
  { status := fun j => if j = 0 then TStatus.running else poolInit.status j,
    stats := poolInit.stats }

def poolFinalEx : PoolState :=
  { status := fun j => if j = 0 then TStatus.done else poolMidEx.status j,
    stats := poolMidEx.stats ++ [(0, poolOutEx 0)] }

theorem map_fst_dinsert {κ α : Type} [DecidableEq κ] (k : κ) (v : α) (l : List (κ × α)) :
    (dinsert k v l).map Prod.fst = insKey k (l.map Prod.fst) := by
  induction l with
  | nil => simp [dinsert, insKey]
  | cons q l ih =>
    by_cases hq : q.1 = k
    · simp [dinsert, hq, insKey]
    · simp only [dinsert, if_neg hq, List.map_cons, ih, insKey, List.mem_cons]
      by_cases hk : k ∈ l.map Prod.fst
      · simp [hk, hq]
      · have hkq : k ≠ q.1 := fun he => hq he.symm
        simp [hk, hkq]

theorem dinsert_of_not_mem {κ α : Type} [DecidableEq κ] {k : κ} (v : α) {l : List (κ × α)}
    (h : k ∉ l.map Prod.fst) : dinsert k v l = l ++ [(k, v)] := by
  induction l with
  | nil => rfl
  | cons q l ih =>
    have hq : q.1 ≠ k := by
      intro he
      exact h (by simp [← he])
    have hl : k ∉ l.map Prod.fst := fun hm => h (by simp [hm])
    simp [dinsert, hq, ih hl]

theorem dlookup_dinsert {κ α : Type} [DecidableEq κ] (k a : κ) (v : α) (l : List (κ × α)) :
    dlookup a (dinsert k v l) = if a = k then some v else dlookup a l := by
  induction l with
  | nil =>
    by_cases h : a = k
    · simp [dinsert, dlookup, h]
    · simp [dinsert, dlookup, h]
      exact fun he : k = a => h he.symm
  | cons q l ih =>
    by_cases hq : q.1 = k
    · by_cases ha : a = k
      · simp [dinsert, hq, dlookup, ha]
      · have h2 : q.1 ≠ a := fun he => ha (he ▸ hq.symm ▸ rfl)
        simp [dinsert, hq, dlookup, ha, h2, hq ▸ h2]
    · by_cases ha : q.1 = a
      · have h2 : a ≠ k := fun he => hq (ha.trans he)
        simp [dinsert, hq, dlookup, ha, h2]
      · simp [dinsert, hq, dlookup, ha, ih]

/-- A key present among a dict's keys has a value under `dlookup`. -/
theorem dlookup_isSome_of_mem {κ α : Type} [DecidableEq κ]
    {k : κ} {l : List (κ × α)} (h : k ∈ l.map Prod.fst) : ∃ v, dlookup k l = some v := by
  induction l with
  | nil => simp at h
  | cons q l ih =>
    by_cases hq : q.1 = k
    · exact ⟨q.2, by simp [dlookup, hq]⟩
    · have : k ∈ l.map Prod.fst := by
        rcases List.mem_cons.mp h with h1 | h1
        · exact absurd h1.symm hq
        · exact h1
      rcases ih this with ⟨v, hv⟩
      exact ⟨v, by simp [dlookup, hq, hv]⟩

theorem insPair_perm {α : Type} (p : Nat × α) (l : List (Nat × α)) :
    (insPair p l).Perm (p :: l) := by
  induction l with
  | nil => exact List.Perm.refl _
  | cons q l ih =>
    by_cases h : p.1 ≤ q.1
    · simp [insPair, h]
    · simp only [insPair, if_neg h]
      exact (ih.cons q).trans (List.Perm.swap p q l)

theorem sortPairs_perm {α : Type} (l : List (Nat × α)) : (sortPairs l).Perm l := by
  induction l with
  | nil => exact List.Perm.refl _
  | cons p l ih => exact (insPair_perm p (sortPairs l)).trans (ih.cons p)

theorem map_fst_insPair {α : Type} (p : Nat × α) (l : List (Nat × α)) :
    (insPair p l).map Prod.fst = insNat p.1 (l.map Prod.fst) := by
  induction l with
  | nil => rfl
  | cons q l ih =>
    by_cases h : p.1 ≤ q.1 <;> simp [insPair, insNat, h, ih]

theorem map_fst_sortPairs {α : Type} (l : List (Nat × α)) :
    (sortPairs l).map Prod.fst = sortNat (l.map Prod.fst) := by
  induction l with
  | nil => rfl
  | cons p l ih => simp [sortPairs, sortNat, map_fst_insPair, ih]

theorem insPair_sorted {α : Type} (p : Nat × α) {l : List (Nat × α)}
    (hl : l.Pairwise keyLe) : (insPair p l).Pairwise keyLe := by
  induction l with
  | nil => simp [insPair, List.Pairwise]
  | cons q l ih =>
    rcases List.pairwise_cons.mp hl with ⟨hq, hl'⟩
    by_cases h : p.1 ≤ q.1
    · simp only [insPair, if_pos h]
      exact List.Pairwise.cons
        (by
          intro r hr
          rcases List.mem_cons.mp hr with h1 | h1
          · exact h1 ▸ h
          · exact le_trans h (hq r h1))
        hl
    · simp only [insPair, if_neg h]
      have hpq : q.1 ≤ p.1 := le_of_not_le h
      refine List.Pairwise.cons ?_ (ih hl')
      intro r hr
      rcases List.mem_cons.mp ((insPair_perm p l).mem_iff.mp hr) with he | h1
      · exact he ▸ hpq
      · exact hq r h1

theorem sortPairs_sorted {α : Type} (l : List (Nat × α)) :
    (sortPairs l).Pairwise keyLe := by
  induction l with
  | nil => simp [sortPairs]
  | cons p l ih => exact insPair_sorted p ih

theorem sortPairs_sorted_strict {α : Type} {l : List (Nat × α)}
    (h : (l.map Prod.fst).Nodup) : (sortPairs l).Pairwise keyLt := by
  have hperm : ((sortPairs l).map Prod.fst).Perm (l.map Prod.fst) :=
    (sortPairs_perm l).map Prod.fst
  have hnd : ((sortPairs l).map Prod.fst).Nodup := hperm.nodup_iff.mpr h
  have hne : (sortPairs l).Pairwise (fun p q => p.1 ≠ q.1) :=
    (List.pairwise_map).mp hnd
  have hle : (sortPairs l).Pairwise keyLe := sortPairs_sorted l
  exact (hle.and hne).imp (fun hpq => lt_of_le_of_ne hpq.1 hpq.2)

/-- Two strictly key-sorted dicts holding the same items are equal. -/
theorem sortPairs_eq_of_perm {α : Type} {l₁ l₂ : List (Nat × α)}
    (hp : l₁.Perm l₂) (h₁ : (l₁.map Prod.fst).Nodup) :
    sortPairs l₁ = sortPairs l₂ := by
  have h₂ : (l₂.map Prod.fst).Nodup := ((hp.map Prod.fst).nodup_iff).mp h₁
  exact List.eq_of_perm_of_sorted
    (((sortPairs_perm l₁).trans hp).trans (sortPairs_perm l₂).symm)
    (sortPairs_sorted_strict h₁) (sortPairs_sorted_strict h₂)

theorem parseAll_keys {stats : List RawStat} {rows : List Row}
    (h : parseAll stats = some rows) : rows.map Prod.fst = stats.map RawStat.id := by
  induction stats generalizing rows with
  | nil =>
    simp [parseAll] at h
    simp [← h]
  | cons r rest ih =>
    simp only [parseAll] at h
    cases hp : parseStat r with
    | none => rw [hp] at h; exact absurd h (by simp)
    | some p =>
      cases hrest : parseAll rest with
      | none => rw [hp, hrest] at h; exact absurd h (by simp)
      | some ps =>
        rw [hp, hrest] at h
        cases h
        have hid : p.1 = r.id := by
          unfold parseStat at hp
          rcases r with ⟨i, ts⟩
          match ts with
          | [] => exact absurd hp (by simp)
          | [t0] => exact absurd hp (by simp)
          | [t0, t1] => exact absurd hp (by simp)
          | t0 :: t1 :: t2 :: tr =>
            simp only at hp
            cases h1 : parseInt? t1 with
            | none => rw [h1] at hp; exact absurd hp (by simp)
            | some n =>
              cases h2 : parseFloat? t2 with
              | none => rw [h1, h2] at hp; exact absurd hp (by simp)
              | some u =>
                rw [h1, h2] at hp
                cases hp
                rfl
        simp [hid, ih hrest]

theorem parseAll_none_iff {stats : List RawStat} :
    parseAll stats = none ↔ ∃ r ∈ stats, parseStat r = none := by
  induction stats with
  | nil => simp [parseAll]
  | cons r rest ih =>
    simp only [parseAll]
    cases hp : parseStat r with
    | none => simp [hp]
    | some p =>
      cases hrest : parseAll rest with
      | none =>
        simp only [List.mem_cons]
        constructor
        · intro _
          rcases ih.mp hrest with ⟨q, hq, hqn⟩
          exact ⟨q, Or.inr hq, hqn⟩
        · intro _; trivial
      | some ps =>
        simp only [List.mem_cons]
        constructor
        · intro h; exact absurd h (by simp)
        · rintro ⟨q, hq | hq, hqn⟩
          · rw [hq] at hqn; rw [hp] at hqn; exact absurd hqn (by simp)
          · have := ih.mpr ⟨q, hq, hqn⟩
            rw [this] at hrest; exact absurd hrest (by simp)

/-- Reading the entries of a permuted raw collection: either both readings
fail, or they produce row lists that are permutations of each other. -/
theorem parseAll_perm {s1 s2 : List RawStat} (hp : s1.Perm s2) :
    (parseAll s1 = none ∧ parseAll s2 = none) ∨
    ∃ r1 r2, parseAll s1 = some r1 ∧ parseAll s2 = some r2 ∧ r1.Perm r2 := by
  induction hp with
  | nil => exact Or.inr ⟨[], [], rfl, rfl, List.Perm.refl _⟩
  | cons x h ih =>
    cases hx : parseStat x with
    | none => exact Or.inl ⟨by simp [parseAll, hx], by simp [parseAll, hx]⟩
    | some p =>
      rcases ih with ⟨h1, h2⟩ | ⟨r1, r2, h1, h2, hperm⟩
      · exact Or.inl ⟨by simp [parseAll, hx, h1], by simp [parseAll, hx, h2]⟩
      · exact Or.inr ⟨p :: r1, p :: r2, by simp [parseAll, hx, h1],
          by simp [parseAll, hx, h2], hperm.cons p⟩
  | swap x y l =>
    cases hx : parseStat x with
    | none =>
      cases hy : parseStat y with
      | none => exact Or.inl ⟨by simp [parseAll, hx, hy], by simp [parseAll, hx, hy]⟩
      | some q =>
        refine Or.inl ⟨?_, ?_⟩ <;> cases hl : parseAll l <;> simp [parseAll, hx, hy, hl]
    | some p =>
      cases hy : parseStat y with
      | none => exact Or.inl ⟨by simp [parseAll, hx, hy], by simp [parseAll, hx, hy]⟩
      | some q =>
        cases hl : parseAll l with
        | none => exact Or.inl ⟨by simp [parseAll, hx, hy, hl], by simp [parseAll, hx, hy, hl]⟩
        | some rows =>
          exact Or.inr ⟨q :: p :: rows, p :: q :: rows,
            by simp [parseAll, hx, hy, hl], by simp [parseAll, hx, hy, hl],
            List.Perm.swap p q rows⟩
  | trans h12 h23 ih12 ih23 =>
    rcases ih12 with ⟨h1, h2⟩ | ⟨r1, r2, h1, h2, hp12⟩
    · rcases ih23 with ⟨h2', h3⟩ | ⟨r2, r3, h2', h3, hp23⟩
      · exact Or.inl ⟨h1, h3⟩
      · rw [h2'] at h2; exact absurd h2 (by simp)
    · rcases ih23 with ⟨h2', h3⟩ | ⟨r2', r3, h2', h3, hp23⟩
      · rw [h2'] at h2; exact absurd h2 (by simp)
      · rw [h2] at h2'
        cases h2'
        exact Or.inr ⟨r1, r3, h1, h3, hp12.trans hp23⟩

theorem foldl_dinsert_keys {β : Type} (f : Row → β) (rows : List Row)
    (acc : List (Nat × β)) :
    ((rows.foldl (fun d p => dinsert p.1 (f p) d) acc).map Prod.fst) =
      foldKeys (acc.map Prod.fst) (rows.map Prod.fst) := by
  induction rows generalizing acc with
  | nil => rfl
  | cons p rows ih =>
    simp only [List.foldl_cons, List.map_cons, foldKeys]
    rw [ih, map_fst_dinsert]

theorem buildDict_keys {β : Type} (f : Row → β) (rows : List Row) :
    (buildDict f rows).map Prod.fst = foldKeys [] (rows.map Prod.fst) :=
  foldl_dinsert_keys f rows []

theorem insKey_nodup {κ : Type} [DecidableEq κ] {k : κ} {ks : List κ} (h : ks.Nodup) :
    (insKey k ks).Nodup := by
  unfold insKey
  by_cases hm : k ∈ ks
  · simpa [hm] using h
  · have hd : ks.Disjoint [k] := by
      intro a ha hak
      rw [List.mem_singleton] at hak
      exact hm (hak ▸ ha)
    simpa [hm] using List.Nodup.append h (List.nodup_singleton k) hd

theorem foldKeys_nodup {ks : List Nat} (l : List Nat) (h : ks.Nodup) :
    (foldKeys ks l).Nodup := by
  induction l generalizing ks with
  | nil => exact h
  | cons k l ih => exact ih (insKey_nodup h)

/-- Every dict built by the aggregation loop has pairwise distinct keys. -/
theorem buildDict_nodup_keys {β : Type} (f : Row → β) (rows : List Row) :
    ((buildDict f rows).map Prod.fst).Nodup := by
  rw [buildDict_keys]
  exact foldKeys_nodup _ List.nodup_nil

theorem mem_insKey {κ : Type} [DecidableEq κ] {a k : κ} {ks : List κ} :
    a ∈ insKey k ks ↔ a = k ∨ a ∈ ks := by
  unfold insKey
  by_cases hm : k ∈ ks
  · simp only [if_pos hm]
    constructor
    · exact Or.inr
    · rintro (rfl | h)
      · exact hm
      · exact h
  · simp [if_neg hm, or_comm]

theorem mem_foldKeys {a : Nat} {ks l : List Nat} :
    a ∈ foldKeys ks l ↔ a ∈ ks ∨ a ∈ l := by
  induction l generalizing ks with
  | nil => simp [foldKeys]
  | cons k l ih =>
    simp only [foldKeys, ih, mem_insKey, List.mem_cons]
    tauto

theorem insNat_perm (k : Nat) (l : List Nat) : (insNat k l).Perm (k :: l) := by
  induction l with
  | nil => exact List.Perm.refl _
  | cons a l ih =>
    by_cases h : k ≤ a
    · simp [insNat, h]
    · simp only [insNat, if_neg h]
      exact (ih.cons a).trans (List.Perm.swap k a l)

theorem sortNat_perm (l : List Nat) : (sortNat l).Perm l := by
  induction l with
  | nil => exact List.Perm.refl _
  | cons k l ih => exact (insNat_perm k (sortNat l)).trans (ih.cons k)

/-- When every row carries a fresh key, the dict-building loop appends the
rows one after another: the dict is the row list itself, in iteration
order. -/
theorem foldl_dinsert_of_nodup {β : Type} (f : Row → β) {rows : List Row}
    (acc : List (Nat × β)) (hfresh : ∀ k ∈ rows.map Prod.fst, k ∉ acc.map Prod.fst)
    (hnd : (rows.map Prod.fst).Nodup) :
    rows.foldl (fun d p => dinsert p.1 (f p) d) acc =
      acc ++ rows.map (fun p => (p.1, f p)) := by
  induction rows generalizing acc with
  | nil => simp
  | cons p rows ih =>
    simp only [List.foldl_cons]
    have hp : p.1 ∉ acc.map Prod.fst := hfresh p.1 (by simp)
    rw [dinsert_of_not_mem (f p) hp]
    have hnd' : (rows.map Prod.fst).Nodup := (List.nodup_cons.mp (by simpa using hnd)).2
    have hfresh' : ∀ k ∈ rows.map Prod.fst, k ∉ (acc ++ [(p.1, f p)]).map Prod.fst := by
      intro k hk
      simp only [List.map_append, List.mem_append, List.map_cons, List.map_nil,
        List.mem_singleton]
      rintro (h | h)
      · exact hfresh k (by simp [hk]) h
      · exact (List.nodup_cons.mp (by simpa using hnd)).1 (h ▸ hk)
    rw [ih _ hfresh' hnd']
    simp

theorem buildDict_of_nodup {β : Type} (f : Row → β) {rows : List Row}
    (hnd : (rows.map Prod.fst).Nodup) :
    buildDict f rows = rows.map (fun p => (p.1, f p)) := by
  unfold buildDict
  rw [foldl_dinsert_of_nodup f [] (by simp) hnd]
  simp

/-- A left fold of binary `min` lands in the collection and bounds it from
below. -/
theorem foldl_min_spec (x : Int) (xs : List Int) :
    xs.foldl min x ∈ x :: xs ∧ ∀ y ∈ x :: xs, xs.foldl min x ≤ y := by
  induction xs generalizing x with
  | nil => simp
  | cons y xs ih =>
    simp only [List.foldl_cons]
    rcases ih (min x y) with ⟨hmem, hle⟩
    have hminxy : xs.foldl min (min x y) ≤ min x y := hle _ (List.mem_cons_self _ _)
    constructor
    · rcases List.mem_cons.mp hmem with h1 | h1
      · rcases le_total x y with hxy | hxy
        · rw [h1, min_eq_left hxy]
          exact List.mem_cons_self _ _
        · rw [h1, min_eq_right hxy]
          exact List.mem_cons_of_mem _ (List.mem_cons_self _ _)
      · exact List.mem_cons_of_mem _ (List.mem_cons_of_mem _ h1)
    · intro z hz
      rcases List.mem_cons.mp hz with h1 | h1
      · rw [h1]
        exact le_trans hminxy (min_le_left x y)
      · rcases List.mem_cons.mp h1 with h2 | h2
        · rw [h2]
          exact le_trans hminxy (min_le_right x y)
        · exact hle z (List.mem_cons_of_mem _ h2)

/-- Python `min` of a nonempty collection is a member and a lower bound. -/
theorem listMin_spec {l : List Int} {m : Int} (h : listMin l = some m) :
    m ∈ l ∧ ∀ y ∈ l, m ≤ y := by
  match l with
  | [] => exact absurd h (by simp [listMin])
  | x :: xs =>
    simp only [listMin, Option.some.injEq] at h
    subst h
    exact foldl_min_spec x xs

theorem listMin_eq_none_iff {l : List Int} : listMin l = none ↔ l = [] := by
  cases l with
  | nil => simp [listMin]
  | cons x xs => simp [listMin]

/-- On a strictly key-sorted dict, the first item scan of `getBest` finds an
item whose value is the target and whose key is least among all items
holding the target value. -/
theorem find_first_min {l : List (Nat × Int)} {m : Int} {p : Nat × Int}
    (hs : l.Pairwise keyLt) (h : l.find? (fun q => q.2 == m) = some p) :
    p ∈ l ∧ p.2 = m ∧ ∀ q ∈ l, q.2 = m → p.1 ≤ q.1 := by
  induction l with
  | nil => exact absurd h (by simp)
  | cons x rest ih =>
    rcases List.pairwise_cons.mp hs with ⟨hx, hrest⟩
    by_cases hxm : x.2 = m
    · rw [List.find?_cons_of_pos _ (by simp [hxm])] at h
      cases h
      refine ⟨List.mem_cons_self _ _, hxm, ?_⟩
      intro q hq _
      rcases List.mem_cons.mp hq with h1 | h1
      · exact h1 ▸ le_refl _
      · exact le_of_lt (hx q h1)
    · rw [List.find?_cons_of_neg _ (by simp [hxm])] at h
      rcases ih hrest h with ⟨hmem, hval, hmin⟩
      refine ⟨List.mem_cons_of_mem x hmem, hval, ?_⟩
      intro q hq hqm
      rcases List.mem_cons.mp hq with h1 | h1
      · exact absurd (h1 ▸ hqm) hxm
      · exact hmin q h1 hqm

/-- Unfolding of a successful `processStats` call into its parsed rows. -/
theorem processStats_inv {stats : List RawStat} {ws : WindowStats}
    (h : processStats stats = some ws) :
    ∃ rows, parseAll stats = some rows ∧
      ws.totalSec = sortPairs (buildDict (fun p => p.2.2.1) rows) ∧
      ws.meanUtil = sortPairs (buildDict (fun p => p.2.2.2) rows) ∧
      ws.traceFile = buildDict (fun p => p.2.1) rows := by
  unfold processStats at h
  cases hp : parseAll stats with
  | none => rw [hp] at h; exact absurd h (by simp)
  | some rows =>
    rw [hp] at h
    simp only [Option.map_some', Option.some.injEq] at h
    exact ⟨rows, rfl, by rw [← h], by rw [← h], by rw [← h]⟩

/-- The `totalSec` dict of any aggregation result is strictly ascending in
the run id. -/
theorem processStats_totalSec_sorted {stats : List RawStat} {ws : WindowStats}
    (h : processStats stats = some ws) : ws.totalSec.Pairwise keyLt := by
  rcases processStats_inv h with ⟨rows, _, ht, _, _⟩
  rw [ht]
  exact sortPairs_sorted_strict (buildDict_nodup_keys _ rows)

/-- The three dicts of any aggregation result have the same keys: the sorted
ones share the sorted key sequence, and `traceFile` holds its permutation in
insertion order. -/
theorem processStats_keys {stats : List RawStat} {ws : WindowStats}
    (h : processStats stats = some ws) :
    ws.totalSec.map Prod.fst = ws.meanUtil.map Prod.fst ∧
    (ws.totalSec.map Prod.fst).Perm (ws.traceFile.map Prod.fst) := by
  rcases processStats_inv h with ⟨rows, _, ht, hm, hf⟩
  rw [ht, hm, hf]
  rw [map_fst_sortPairs, map_fst_sortPairs, buildDict_keys, buildDict_keys, buildDict_keys]
  exact ⟨rfl, sortNat_perm _⟩

/-- Full specification of a successful best selection over an aggregation
result: the returned id is a key of the stats, the returned time is the
global minimum, the id is least among the minimum's holders, and the trace
file is the one the `traceFile` dict assigns to that id. -/
theorem getBest_spec {stats : List RawStat} {ws : WindowStats}
    (h : processStats stats = some ws) (hne : ws.totalSec ≠ []) :
    ∃ f m k, getBest ws = some (f, m, k) ∧
      (k, m) ∈ ws.totalSec ∧
      (∀ p ∈ ws.totalSec, m ≤ p.2) ∧
      (∀ p ∈ ws.totalSec, p.2 = m → k ≤ p.1) ∧
      dlookup k ws.traceFile = some f := by
  cases hmin : listMin (ws.totalSec.map Prod.snd) with
  | none =>
    rw [listMin_eq_none_iff] at hmin
    exact absurd (List.map_eq_nil_iff.mp hmin) hne
  | some m =>
    rcases listMin_spec hmin with ⟨hmem, hlb⟩
    rcases List.mem_map.mp hmem with ⟨p0, hp0, hp0v⟩
    cases hfind : ws.totalSec.find? (fun q => q.2 == m) with
    | none =>
      rw [List.find?_eq_none] at hfind
      exact absurd (by simp [hp0v]) (hfind p0 hp0)
    | some p =>
      rcases find_first_min (processStats_totalSec_sorted h) hfind with ⟨hpmem, hpv, hpmin⟩
      have hkey : p.1 ∈ ws.traceFile.map Prod.fst := by
        refine ((processStats_keys h).2.mem_iff).mp ?_
        exact List.mem_map.mpr ⟨p, hpmem, rfl⟩
      rcases dlookup_isSome_of_mem hkey with ⟨f, hf⟩
      refine ⟨f, m, p.1, ?_, ?_, ?_, hpmin, hf⟩
      · simp only [getBest, hmin, hfind, hf]
      · have : p = (p.1, m) := by
          rcases p with ⟨a, b⟩
          simp only at hpv
          rw [hpv]
        exact this ▸ hpmem
      · intro q hq
        exact hlb q.2 (List.mem_map.mpr ⟨q, hq, rfl⟩)

theorem dinsert_dinsert_same {κ α : Type} [DecidableEq κ] (k : κ) (v w : α)
    (l : List (κ × α)) : dinsert k v (dinsert k w l) = dinsert k v l := by
  induction l with
  | nil => simp [dinsert]
  | cons q l ih =>
    by_cases hq : q.1 = k
    · simp [dinsert, hq]
    · simp [dinsert, hq, ih]

theorem mem_keys_dinsert_self {κ α : Type} [DecidableEq κ] (k : κ) (v : α)
    (l : List (κ × α)) : k ∈ (dinsert k v l).map Prod.fst := by
  rw [map_fst_dinsert]
  exact mem_insKey.mpr (Or.inl rfl)

/-- Two assignments at distinct keys commute, provided the first key is
already present (so neither order changes the key layout). -/
theorem dinsert_comm {κ α : Type} [DecidableEq κ] {r k : κ} (hne : r ≠ k)
    (vr vk : α) {z : List (κ × α)} (hk : k ∈ z.map Prod.fst) :
    dinsert k vk (dinsert r vr z) = dinsert r vr (dinsert k vk z) := by
  have hkr : k ≠ r := hne.symm
  induction z with
  | nil => simp at hk
  | cons s z ih =>
    by_cases hsk : s.1 = k
    · have hsr : s.1 ≠ r := fun he => hne (he.symm.trans hsk)
      simp [dinsert, hsk, hsr, hkr]
    · rw [List.map_cons] at hk
      have hk' : k ∈ z.map Prod.fst := by
        rcases List.mem_cons.mp hk with h1 | h1
        · exact absurd h1.symm hsk
        · exact h1
      by_cases hsr : s.1 = r
      · simp [dinsert, hsk, hsr, hne, hkr]
      · simp [dinsert, hsk, hsr, ih hk']

/-- Updating with a dict whose keys avoid `l` commutes with an in-place
assignment at a key that is already present. -/
theorem dinsert_bupdate_of_mem {κ α : Type} [DecidableEq κ] {k : κ} (v : α)
    {l z : List (κ × α)} (hl : k ∉ l.map Prod.fst) (hz : k ∈ z.map Prod.fst) :
    dinsert k v (bupdate z l) = bupdate (dinsert k v z) l := by
  induction l generalizing z with
  | nil => rfl
  | cons r l ih =>
    have hrk : r.1 ≠ k := by
      intro he
      exact hl (by simp [he])
    have hl' : k ∉ l.map Prod.fst := fun hm => hl (by simp [hm])
    have hz' : k ∈ (dinsert r.1 r.2 z).map Prod.fst := by
      rw [map_fst_dinsert]
      exact mem_insKey.mpr (Or.inr hz)
    calc dinsert k v (bupdate (dinsert r.1 r.2 z) l)
        = bupdate (dinsert k v (dinsert r.1 r.2 z)) l := ih hl' hz'
      _ = bupdate (dinsert r.1 r.2 (dinsert k v z)) l := by
          rw [dinsert_comm hrk r.2 v hz]

/-- Assigning into the update source before updating is assigning after:
`base.update(dinsert k v new) = dinsert k v (base.update(new))` for a
duplicate-free `new`. -/
theorem bupdate_dinsert {κ α : Type} [DecidableEq κ] (x : List (κ × α)) (k : κ) (v : α)
    {y : List (κ × α)} (hy : (y.map Prod.fst).Nodup) :
    bupdate x (dinsert k v y) = dinsert k v (bupdate x y) := by
  induction y generalizing x with
  | nil => rfl
  | cons q y ih =>
    rw [List.map_cons, List.nodup_cons] at hy
    rcases hy with ⟨hqy, hy'⟩
    by_cases hqk : q.1 = k
    · show bupdate x (dinsert k v (q :: y)) = dinsert k v (bupdate (dinsert q.1 q.2 x) y)
      have h1 : dinsert k v (q :: y) = (k, v) :: y := by
        simp [dinsert, hqk]
      rw [h1]
      show bupdate (dinsert k v x) y = dinsert k v (bupdate (dinsert q.1 q.2 x) y)
      have hky : k ∉ y.map Prod.fst := hqk ▸ hqy
      have hkz : k ∈ (dinsert q.1 q.2 x).map Prod.fst := by
        rw [← hqk]
        exact mem_keys_dinsert_self q.1 q.2 x
      rw [dinsert_bupdate_of_mem v hky hkz, hqk, dinsert_dinsert_same]
    · have h1 : dinsert k v (q :: y) = q :: dinsert k v y := by
        simp [dinsert, hqk]
      show bupdate x (dinsert k v (q :: y)) = dinsert k v (bupdate (dinsert q.1 q.2 x) y)
      rw [h1]
      show bupdate (dinsert q.1 q.2 x) (dinsert k v y) = dinsert k v (bupdate (dinsert q.1 q.2 x) y)
      exact ih _ hy'

/-- Merging bundle `y` then bundle `z` equals merging the pre-merged bundle
`y.update(z)` in one step, for a duplicate-free `y` (every bundle read from
a JSON object is). -/
theorem bupdate_assoc {κ α : Type} [DecidableEq κ] (x : List (κ × α))
    {y : List (κ × α)} (z : List (κ × α)) (hy : (y.map Prod.fst).Nodup) :
    bupdate (bupdate x y) z = bupdate x (bupdate y z) := by
  induction z generalizing y with
  | nil => rfl
  | cons p z ih =>
    show bupdate (dinsert p.1 p.2 (bupdate x y)) z =
      bupdate x (bupdate (dinsert p.1 p.2 y) z)
    have hy2 : ((dinsert p.1 p.2 y).map Prod.fst).Nodup := by
      rw [map_fst_dinsert]
      exact insKey_nodup hy
    rw [← ih hy2, ← bupdate_dinsert x p.1 p.2 hy]

theorem dinsert_mem_self {κ α : Type} [DecidableEq κ] {p : κ × α} {l : List (κ × α)}
    (hmem : p ∈ l) (hnd : (l.map Prod.fst).Nodup) : dinsert p.1 p.2 l = l := by
  induction l with
  | nil => simp at hmem
  | cons q l ih =>
    rw [List.map_cons, List.nodup_cons] at hnd
    rcases hnd with ⟨hq, hnd'⟩
    by_cases hqp : q.1 = p.1
    · rcases List.mem_cons.mp hmem with h1 | h1
      · simp [dinsert, hqp, ← h1]
      · exact absurd (hqp ▸ List.mem_map_of_mem Prod.fst h1) hq
    · have h1 : p ∈ l := by
        rcases List.mem_cons.mp hmem with h | h
        · exact absurd (congrArg Prod.fst h).symm hqp
        · exact h
      simp [dinsert, hqp, ih h1 hnd']

/-- Updating a duplicate-free dict with entries it already holds changes
nothing. -/
theorem bupdate_absorb {κ α : Type} [DecidableEq κ] {A l : List (κ × α)}
    (hnd : (A.map Prod.fst).Nodup) (hsub : ∀ p ∈ l, p ∈ A) : bupdate A l = A := by
  induction l with
  | nil => rfl
  | cons p l ih =>
    show bupdate (dinsert p.1 p.2 A) l = A
    rw [dinsert_mem_self (hsub p (List.mem_cons_self _ _)) hnd]
    exact ih (fun q hq => hsub q (List.mem_cons_of_mem _ hq))

/-- A fresh-keyed, duplicate-free update is concatenation. -/
theorem bupdate_of_fresh {κ α : Type} [DecidableEq κ] {base new : List (κ × α)}
    (hfresh : ∀ k ∈ new.map Prod.fst, k ∉ base.map Prod.fst)
    (hnd : (new.map Prod.fst).Nodup) : bupdate base new = base ++ new := by
  induction new generalizing base with
  | nil => simp [bupdate]
  | cons p l ih =>
    rw [List.map_cons, List.nodup_cons] at hnd
    rcases hnd with ⟨hp, hnd'⟩
    show bupdate (dinsert p.1 p.2 base) l = base ++ p :: l
    rw [dinsert_of_not_mem p.2 (hfresh p.1 (by simp))]
    have hfresh' : ∀ k ∈ l.map Prod.fst, k ∉ (base ++ [(p.1, p.2)]).map Prod.fst := by
      intro k hk
      simp only [List.map_append, List.mem_append, List.map_cons, List.map_nil,
        List.mem_singleton]
      rintro (h | h)
      · exact hfresh k (by simp [hk]) h
      · exact hp (h ▸ hk)
    rw [ih hfresh' hnd']
    simp

theorem bupdate_nil_left {κ α : Type} [DecidableEq κ] {b : List (κ × α)}
    (hnd : (b.map Prod.fst).Nodup) : bupdate [] b = b := by
  rw [bupdate_of_fresh (by simp) hnd]
  simp

theorem dlookup_eq_none_of_not_mem {κ α : Type} [DecidableEq κ] {k : κ}
    {l : List (κ × α)} (h : k ∉ l.map Prod.fst) : dlookup k l = none := by
  induction l with
  | nil => rfl
  | cons q l ih =>
    have hq : q.1 ≠ k := by
      intro he
      exact h (by simp [he])
    simp only [dlookup, if_neg hq]
    exact ih (fun hm => h (by simp [hm]))

/-- Updating gives the key-wise union with the new entries taking
precedence: a key of `new` reads its `new` value, any other key keeps its
`base` value. -/
theorem dlookup_bupdate {κ α : Type} [DecidableEq κ] (base : List (κ × α))
    {new : List (κ × α)} (hnd : (new.map Prod.fst).Nodup) (k : κ) :
    dlookup k (bupdate base new) =
      if k ∈ new.map Prod.fst then dlookup k new else dlookup k base := by
  induction new generalizing base with
  | nil => simp [bupdate, dlookup]
  | cons p new ih =>
    rw [List.map_cons, List.nodup_cons] at hnd
    rcases hnd with ⟨hp, hnd'⟩
    show dlookup k (bupdate (dinsert p.1 p.2 base) new) = _
    rw [ih _ hnd']
    by_cases hkp : k = p.1
    · have hknew : k ∉ new.map Prod.fst := hkp ▸ hp
      have hmem : k ∈ (p :: new).map Prod.fst := by simp [hkp]
      rw [if_neg hknew, if_pos hmem, dlookup_dinsert, if_pos hkp]
      have hval : dlookup k (p :: new) = some p.2 := by
        show (if p.1 = k then some p.2 else dlookup k new) = some p.2
        rw [if_pos hkp.symm]
      rw [hval]
    · by_cases hknew : k ∈ new.map Prod.fst
      · have hmem : k ∈ (p :: new).map Prod.fst := by simp [hknew]
        rw [if_pos hknew, if_pos hmem]
        show dlookup k new = (if p.1 = k then some p.2 else dlookup k new)
        rw [if_neg (fun he => hkp he.symm)]
      · have hmem : k ∉ (p :: new).map Prod.fst := by
          intro hm
          rw [List.map_cons] at hm
          rcases List.mem_cons.mp hm with h1 | h1
          · exact hkp h1
          · exact hknew h1
        rw [if_neg hknew, if_neg hmem, dlookup_dinsert, if_neg hkp]

/-- Flipping one list element from unsatisfying to satisfying shifts the
filter by exactly that element. -/
theorem filter_flip_perm {l : List Nat} (hl : l.Nodup) {i : Nat} (hi : i ∈ l)
    {p q : Nat → Bool} (hpi : p i = false) (hqi : q i = true)
    (hagree : ∀ j ∈ l, j ≠ i → q j = p j) :
    (l.filter q).Perm (i :: l.filter p) := by
  induction l with
  | nil => simp at hi
  | cons a l ih =>
    rw [List.nodup_cons] at hl
    rcases hl with ⟨hal, hl'⟩
    rcases List.mem_cons.mp hi with h1 | h1
    · subst h1
      have heq : l.filter q = l.filter p :=
        List.filter_congr (fun j hj =>
          hagree j (List.mem_cons_of_mem _ hj) (fun he => hal (he ▸ hj)))
      rw [List.filter_cons_of_pos hqi, List.filter_cons_of_neg (by simp [hpi]), heq]
    · have hai : a ≠ i := fun he => hal (he ▸ h1)
      have hqa : q a = p a := hagree a (List.mem_cons_self _ _) hai
      have hperm := ih hl' h1 (fun j hj hji => hagree j (List.mem_cons_of_mem _ hj) hji)
      by_cases hpa : p a = true
      · rw [List.filter_cons_of_pos (hqa ▸ hpa), List.filter_cons_of_pos hpa]
        exact (hperm.cons a).trans (List.Perm.swap i a _)
      · rw [List.filter_cons_of_neg (by simp [hqa, hpa]),
          List.filter_cons_of_neg (by simp [hpa])]
        exact hperm

/-- Pool invariant: never more than `cores` tasks run at once, and the
shared list holds exactly one entry per completed task. -/
theorem pool_inv {cores N : Nat} {out : Nat → List String} {s : PoolState}
    (h : Relation.ReflTransGen (PoolStep cores N out) poolInit s) :
    countRunning N s ≤ cores ∧
      (s.stats.map Prod.fst).Perm
        ((List.range N).filter (fun i => decide (s.status i = TStatus.done))) := by
  induction h with
  | refl =>
    constructor
    · simp [countRunning, poolInit]
    · simp [poolInit]
  | tail hreach hstep ih =>
    rename_i b c
    rcases ih with ⟨ihc, ihp⟩
    cases hstep with
    | start i hi hp hc =>
      constructor
      · have hflip : ((List.range N).filter
            (fun j => decide ((if j = i then TStatus.running else b.status j) = TStatus.running))).Perm
            (i :: (List.range N).filter (fun j => decide (b.status j = TStatus.running))) := by
          refine filter_flip_perm (List.nodup_range N) (List.mem_range.mpr hi) ?_ ?_ ?_
          · simp [hp]
          · simp
          · intro j hj hji
            simp [hji]
        show ((List.range N).filter
          (fun j => decide ((if j = i then TStatus.running else b.status j) = TStatus.running))).length ≤ cores
        have hlen := hflip.length_eq
        have hc2 : ((List.range N).filter
            (fun j => decide (b.status j = TStatus.running))).length < cores := hc
        rw [hlen, List.length_cons]
        omega
      · have heq : (List.range N).filter
            (fun j => decide ((if j = i then TStatus.running else b.status j) = TStatus.done)) =
            (List.range N).filter (fun j => decide (b.status j = TStatus.done)) := by
          refine List.filter_congr ?_
          intro j hj
          by_cases hji : j = i
          · subst hji
            simp [hp]
          · simp [hji]
        show (b.stats.map Prod.fst).Perm ((List.range N).filter
          (fun j => decide ((if j = i then TStatus.running else b.status j) = TStatus.done)))
        rw [heq]
        exact ihp
    | finish i hi hr =>
      constructor
      · have hflip : ((List.range N).filter
            (fun j => decide (b.status j = TStatus.running))).Perm
            (i :: (List.range N).filter
              (fun j => decide ((if j = i then TStatus.done else b.status j) = TStatus.running))) := by
          refine filter_flip_perm (List.nodup_range N) (List.mem_range.mpr hi) ?_ ?_ ?_
          · simp
          · simp [hr]
          · intro j hj hji
            simp [hji]
        show ((List.range N).filter
          (fun j => decide ((if j = i then TStatus.done else b.status j) = TStatus.running))).length ≤ cores
        have hlen := hflip.length_eq
        have hc2 : ((List.range N).filter
            (fun j => decide (b.status j = TStatus.running))).length ≤ cores := ihc
        rw [List.length_cons] at hlen
        omega
      · have hflip : ((List.range N).filter
            (fun j => decide ((if j = i then TStatus.done else b.status j) = TStatus.done))).Perm
            (i :: (List.range N).filter (fun j => decide (b.status j = TStatus.done))) := by
          refine filter_flip_perm (List.nodup_range N) (List.mem_range.mpr hi) ?_ ?_ ?_
          · simp [hr]
          · simp
          · intro j hj hji
            simp [hji]
        show ((b.stats ++ [(i, out i)]).map Prod.fst).Perm ((List.range N).filter
          (fun j => decide ((if j = i then TStatus.done else b.status j) = TStatus.done)))
        rw [List.map_append]
        refine List.Perm.trans ?_ hflip.symm
        refine List.Perm.trans (List.perm_append_singleton _ _) ?_
        exact ihp.cons i

/-- When the pool has joined (all tasks done), the shared list holds
exactly the ids `0 .. N-1`, one entry each. -/
theorem pool_complete {cores N : Nat} {out : Nat → List String} {s : PoolState}
    (h : Relation.ReflTransGen (PoolStep cores N out) poolInit s)
    (hdone : allDone N s) : (s.stats.map Prod.fst).Perm (List.range N) := by
  have hp := (pool_inv h).2
  have heq : (List.range N).filter (fun i => decide (s.status i = TStatus.done)) =
      List.range N := by
    refine List.filter_eq_self.mpr ?_
    intro j hj
    simp [hdone j (List.mem_range.mp hj)]
  exact heq ▸ hp

/-- On duplicate-free keys, `dlookup` sees only the item set, not its
order. -/
theorem dlookup_perm {κ α : Type} [DecidableEq κ] {l1 l2 : List (κ × α)}
    (hp : l1.Perm l2) (hnd : (l1.map Prod.fst).Nodup) (k : κ) :
    dlookup k l1 = dlookup k l2 := by
  induction hp with
  | nil => rfl
  | cons x h ih =>
    rename_i t1 t2
    rw [List.map_cons, List.nodup_cons] at hnd
    by_cases hxk : x.1 = k
    · show (if x.1 = k then some x.2 else dlookup k t1) =
        (if x.1 = k then some x.2 else dlookup k t2)
      rw [if_pos hxk, if_pos hxk]
    · show (if x.1 = k then some x.2 else dlookup k t1) =
        (if x.1 = k then some x.2 else dlookup k t2)
      rw [if_neg hxk, if_neg hxk]
      exact ih hnd.2
  | swap x y l =>
    rw [List.map_cons, List.map_cons, List.nodup_cons] at hnd
    have hyx : y.1 ∉ (x.1 :: l.map Prod.fst) := hnd.1
    have hne : y.1 ≠ x.1 := fun he => hyx (he ▸ List.mem_cons_self _ _)
    show (if y.1 = k then some y.2 else if x.1 = k then some x.2 else dlookup k l) =
      (if x.1 = k then some x.2 else if y.1 = k then some y.2 else dlookup k l)
    by_cases hyk : y.1 = k
    · have hxk : x.1 ≠ k := fun he => hne (hyk.trans he.symm)
      rw [if_pos hyk, if_neg hxk, if_pos hyk]
    · by_cases hxk : x.1 = k
      · rw [if_neg hyk, if_pos hxk, if_pos hxk]
      · rw [if_neg hyk, if_neg hxk, if_neg hxk, if_neg hyk]
  | trans h12 h23 ih12 ih23 =>
    have hnd2 := ((h12.map Prod.fst).nodup_iff).mp hnd
    exact (ih12 hnd).trans (ih23 hnd2)

/-- The cumulative seed written after window `i` is the fold of the merge
over the winning bundles of windows `0 .. i`. -/
theorem cumulativeSeed_foldl (wins : Nat → Bundle)
    (hnd : ∀ j, ((wins j).map Prod.fst).Nodup) (i : Nat) :
    cumulativeSeed wins i = ((List.range (i + 1)).map wins).foldl bupdate [] := by
  induction i with
  | zero =>
    show wins 0 = _
    rw [List.range_succ]
    simp only [List.range_zero, List.nil_append, List.map_cons, List.map_nil,
      List.foldl_cons, List.foldl_nil]
    exact (bupdate_nil_left (hnd 0)).symm
  | succ i ih =>
    show bupdate (cumulativeSeed wins i) (wins (i + 1)) = _
    rw [List.range_succ, List.map_append, List.foldl_append, ← ih]
    rfl

/-- The selector `getBest` ignores `meanUtil` and uses `traceFile` only through key
lookups, so it is invariant under reordering of `traceFile`. -/
theorem getBest_congr (T : List (Nat × Int)) (M1 M2 : List (Nat × Rat))
    (F1 F2 : List (Nat × String)) (hF : ∀ k, dlookup k F1 = dlookup k F2) :
    getBest ⟨T, M1, F1⟩ = getBest ⟨T, M2, F2⟩ := by
  cases hlm : listMin (T.map Prod.snd) with
  | none => simp only [getBest, hlm]
  | some m =>
    cases hf : T.find? (fun p => p.2 == m) with
    | none => simp only [getBest, hlm, hf]
    | some p => simp only [getBest, hlm, hf, hF p.1]

/-- Key sequence of the row-to-dict map. -/
theorem map_fst_rows_map {β : Type} (f : Row → β) (rows : List Row) :
    ((rows.map (fun p => (p.1, f p))).map Prod.fst) = rows.map Prod.fst := by
  induction rows with
  | nil => rfl
  | cons p rows ih => simp [ih]

/-- Aggregation followed by selection depends only on the raw collection
viewed as a set, as long as run ids are unique (which `startSim`
guarantees). -/
theorem processStats_getBest_perm {s1 s2 : List RawStat} (hperm : s1.Perm s2)
    (hnd : (s1.map RawStat.id).Nodup) :
    (processStats s1).bind getBest = (processStats s2).bind getBest := by
  rcases parseAll_perm hperm with ⟨h1, h2⟩ | ⟨r1, r2, h1, h2, hrp⟩
  · simp [processStats, h1, h2]
  · have hk1 : r1.map Prod.fst = s1.map RawStat.id := parseAll_keys h1
    have hnd1 : (r1.map Prod.fst).Nodup := hk1 ▸ hnd
    have hnd2 : (r2.map Prod.fst).Nodup := ((hrp.map Prod.fst).nodup_iff).mp hnd1
    have hsort : ∀ {β : Type} [inst : LinearOrder β] (f : Row → Int),
        True := fun _ => trivial
    have hdict : ∀ {β : Type} (f : Row → β),
        ((r1.map (fun p => (p.1, f p))).map Prod.fst).Nodup := by
      intro β f
      rw [map_fst_rows_map]
      exact hnd1
    have hdperm : ∀ {β : Type} (f : Row → β),
        (r1.map (fun p => (p.1, f p))).Perm (r2.map (fun p => (p.1, f p))) :=
      fun {β} f => hrp.map _
    have hts : sortPairs (buildDict (fun p => p.2.2.1) r1) =
        sortPairs (buildDict (fun p => p.2.2.1) r2) := by
      rw [buildDict_of_nodup _ hnd1, buildDict_of_nodup _ hnd2]
      exact sortPairs_eq_of_perm (hdperm _) (hdict _)
    have hlk : ∀ k, dlookup k (buildDict (fun p => p.2.1) r1) =
        dlookup k (buildDict (fun p => p.2.1) r2) := by
      intro k
      rw [buildDict_of_nodup _ hnd1, buildDict_of_nodup _ hnd2]
      exact dlookup_perm (hdperm _) (hdict _) k
    have hp1 : processStats s1 = some ⟨sortPairs (buildDict (fun p => p.2.2.1) r1),
        sortPairs (buildDict (fun p => p.2.2.2) r1), buildDict (fun p => p.2.1) r1⟩ := by
      simp [processStats, h1]
    have hp2 : processStats s2 = some ⟨sortPairs (buildDict (fun p => p.2.2.1) r2),
        sortPairs (buildDict (fun p => p.2.2.2) r2), buildDict (fun p => p.2.1) r2⟩ := by
      simp [processStats, h2]
    rw [hp1, hp2]
    show getBest _ = getBest _
    rw [hts]
    exact getBest_congr _ _ _ _ _ hlk

/-- C1: on a nonempty aggregation result, `getBest` returns the smallest
run id attaining the minimum total time, that minimum itself, and the trace
file the `traceFile` mapping assigns to that id; the id is present in the
stats and the time is the minimum over all entries. -/
theorem C1_best_selection (stats : List RawStat) (ws : WindowStats)
    (h : processStats stats = some ws) (hne : ws.totalSec ≠ []) :
    ∃ f m k, getBest ws = some (f, m, k) ∧
      (k, m) ∈ ws.totalSec ∧
      (∀ p ∈ ws.totalSec, m ≤ p.2) ∧
      (∀ p ∈ ws.totalSec, p.2 = m → k ≤ p.1) ∧
      dlookup k ws.traceFile = some f :=
  getBest_spec h hne

/-- C4: on an empty aggregation result (all runs failed), the best
selection fails instead of returning a result, and the driver's window step
produces no seed for the next window. -/
theorem C4_no_viable_candidate (readB : String → Option Bundle) (prev : Bundle)
    (stats : List RawStat) (ws : WindowStats) (h : processStats stats = some ws)
    (hempty : ws.totalSec = []) :
    getBest ws = none ∧ windowStep readB prev stats = none ∧
      window0Seed readB stats = none := by
  have hgb : getBest ws = none := by
    unfold getBest
    rw [hempty]
    rfl
  refine ⟨hgb, ?_, ?_⟩
  · unfold windowStep
    rw [h]
    simp [hgb]
  · unfold window0Seed
    rw [h]
    simp [hgb]

/-- C5: the composition of aggregation and selection is deterministic in
the raw result collection viewed as a set: permuting the collection (with
the per-window run ids unique) never changes the selected trace file, time,
or run id. -/
theorem C5_order_insensitive (s1 s2 : List RawStat) (hperm : s1.Perm s2)
    (hnd : (s1.map RawStat.id).Nodup) :
    (processStats s1).bind getBest = (processStats s2).bind getBest :=
  processStats_getBest_perm hperm hnd

/-- C6 fails as stated: the `traceFile` mapping is left in raw insertion
order, so its keys need not be ascending — here they iterate as `[1, 0]`. -/
theorem C6_traceFile_unsorted :
    (processStats [⟨1, ["tA", "5", "1"]⟩, ⟨0, ["tB", "7", "1"]⟩]).map
        (fun w => w.traceFile.map Prod.fst) = some [1, 0] ∧
      ¬ List.Pairwise (fun a b : Nat => a < b) [1, 0] := by
  constructor
  · rfl
  · decide

/-- C6 amended: `totalSec` and `meanUtil` are rebuilt sorted ascending by
run id, while `traceFile` keeps the raw collection's insertion order (it is
ascending only when the collection arrives in ascending id order). -/
theorem C6_sorted_except_traceFile (stats : List RawStat) (ws : WindowStats)
    (h : processStats stats = some ws) (hnd : (stats.map RawStat.id).Nodup) :
    ws.totalSec.Pairwise keyLt ∧ ws.meanUtil.Pairwise keyLt ∧
      ws.traceFile.map Prod.fst = stats.map RawStat.id := by
  rcases processStats_inv h with ⟨rows, hrows, ht, hm, hf⟩
  have hk : rows.map Prod.fst = stats.map RawStat.id := parseAll_keys hrows
  have hndr : (rows.map Prod.fst).Nodup := hk ▸ hnd
  refine ⟨processStats_totalSec_sorted h, ?_, ?_⟩
  · rw [hm]
    exact sortPairs_sorted_strict (buildDict_nodup_keys _ rows)
  · rw [hf, buildDict_of_nodup _ hndr, map_fst_rows_map, hk]

/-- C7: the three mappings of any aggregation result have identical key
sets. -/
theorem C7_identical_key_sets (stats : List RawStat) (ws : WindowStats)
    (h : processStats stats = some ws) (k : Nat) :
    (k ∈ ws.totalSec.map Prod.fst ↔ k ∈ ws.traceFile.map Prod.fst) ∧
      (k ∈ ws.meanUtil.map Prod.fst ↔ k ∈ ws.totalSec.map Prod.fst) := by
  rcases processStats_keys h with ⟨heq, hperm⟩
  exact ⟨hperm.mem_iff, by rw [heq]⟩

/-- C8: the code contradicts the specified per-run parse-failure handling.
A malformed entry (fewer than three stdout tokens) makes the whole
aggregation abort — `stat[1][1]` raises `IndexError` — so a window with one
malformed and one well-formed run yields no `WindowStats` at all instead of
a one-entry result with the failure surfaced. -/
theorem C8_malformed_aborts_aggregation :
    parseStat ⟨0, ["res0.txt"]⟩ = none ∧
      parseStat ⟨1, ["res1.txt", "100", "1"]⟩ = some (1, "res1.txt", 100, 1) ∧
      processStats [⟨0, ["res0.txt"]⟩, ⟨1, ["res1.txt", "100", "1"]⟩] = none := by
  refine ⟨rfl, ?_, rfl⟩
  decide

/-- C10: the aggregator itself accepts an empty raw collection, producing
three empty mappings; only the best selector afterwards fails on it. -/
theorem C10_empty_aggregation :
    processStats [] = some ⟨[], [], []⟩ ∧ getBest ⟨[], [], []⟩ = none :=
  ⟨rfl, rfl⟩

/-- C2: the seed for window 1 is exactly window 0's winning bundle; the
seed written for window `i+1` is the cumulative bundle used for window `i`
updated with window `i`'s winning bundle, new entries taking precedence on
key collision; hence the seed fed into window `i+1` is the merge of the
winning bundles of windows `0 .. i`, later windows overriding earlier
ones. -/
theorem C2_cumulative_seed (readB : String → Option Bundle) (prev win : Bundle)
    (stats : List RawStat) (ws : WindowStats) (f : String) (m : Int) (k : Nat)
    (wins : Nat → Bundle) (i : Nat)
    (h1 : processStats stats = some ws) (h2 : getBest ws = some (f, m, k))
    (h3 : readB f = some win) (hwin : (win.map Prod.fst).Nodup)
    (hnd : ∀ j, ((wins j).map Prod.fst).Nodup) :
    windowStep readB prev stats = some (bupdate prev win) ∧
      window0Seed readB stats = some win ∧
      cumulativeSeed wins 0 = wins 0 ∧
      cumulativeSeed wins (i + 1) = bupdate (cumulativeSeed wins i) (wins (i + 1)) ∧
      cumulativeSeed wins i = ((List.range (i + 1)).map wins).foldl bupdate [] ∧
      (∀ a, dlookup a (bupdate prev win) =
        if a ∈ win.map Prod.fst then dlookup a win else dlookup a prev) := by
  refine ⟨?_, ?_, rfl, rfl, cumulativeSeed_foldl wins hnd i,
    fun a => dlookup_bupdate prev hwin a⟩
  · unfold windowStep
    rw [h1]
    simp [h2, h3]
  · unfold window0Seed
    rw [h1]
    simp [h2, h3]

/-- C3: the seed-bundle merge is associative — merging bundle `A` then `B`
into a base equals merging the pre-merged `A.update(B)` in one step — and
idempotent: re-merging a bundle the result already incorporates changes
nothing. (`A` duplicate-free, as every bundle read from a JSON object
is.) -/
theorem C3_merge_assoc_idem (base A B : Bundle) (hA : (A.map Prod.fst).Nodup) :
    bupdate (bupdate base A) B = bupdate base (bupdate A B) ∧
      bupdate (bupdate base A) A = bupdate base A := by
  refine ⟨bupdate_assoc base B hA, ?_⟩
  rw [bupdate_assoc base A hA, bupdate_absorb hA (fun p hp => hp)]

/-- C9: for a window of `N` submitted traces on a pool of `cores` workers,
no reachable pool state runs more than `cores` invocations at once, and at
the barrier (all tasks done, which `pool.join` enforces before `startSim`
returns) the shared list holds exactly `N` outcomes, one per run id, none
dropped. -/
theorem C9_pool_barrier (cores N : Nat) (out : Nat → List String) (s : PoolState)
    (h : Relation.ReflTransGen (PoolStep cores N out) poolInit s) :
    countRunning N s ≤ cores ∧
      (allDone N s →
        (s.stats.map Prod.fst).Perm (List.range N) ∧ s.stats.length = N) := by
  refine ⟨(pool_inv h).1, fun hd => ?_⟩
  have hp := pool_complete h hd
  refine ⟨hp, ?_⟩
  have hlen := hp.length_eq
  simpa using hlen

/-- Instance of C1 on a three-run window with a tie at the minimum. -/
theorem C1_best_selection_witness :
    ∃ f m k, getBest ws1ex = some (f, m, k) ∧
      (k, m) ∈ ws1ex.totalSec ∧
      (∀ p ∈ ws1ex.totalSec, m ≤ p.2) ∧
      (∀ p ∈ ws1ex.totalSec, p.2 = m → k ≤ p.1) ∧
      dlookup k ws1ex.traceFile = some f :=
  C1_best_selection stats1ex ws1ex (by decide) (by decide)

theorem winsEx_nodup : ∀ j, ((winsEx j).map Prod.fst).Nodup := by
  intro j
  unfold winsEx
  by_cases h0 : j = 0
  · simp [h0]
  · by_cases h1 : j = 1
    · simp [h0, h1]
    · simp [h0, h1]

/-- Instance of C2, including the two-window scenario: winning bundles
`{"j1": "A"}` then `{"j2": "B"}` give the cumulative seed
`{"j1": "A", "j2": "B"}` for window 2. -/
theorem C2_cumulative_seed_witness :
    (windowStep readBex [("p", "P")] stats2ex =
        some (bupdate [("p", "P")] [("j1", "A")]) ∧
      window0Seed readBex stats2ex = some [("j1", "A")] ∧
      cumulativeSeed winsEx 0 = winsEx 0 ∧
      cumulativeSeed winsEx (1 + 1) = bupdate (cumulativeSeed winsEx 1) (winsEx (1 + 1)) ∧
      cumulativeSeed winsEx 1 = ((List.range (1 + 1)).map winsEx).foldl bupdate [] ∧
      (∀ a, dlookup a (bupdate [("p", "P")] [("j1", "A")]) =
        if a ∈ ([("j1", "A")] : Bundle).map Prod.fst then dlookup a [("j1", "A")]
        else dlookup a [("p", "P")])) ∧
      cumulativeSeed winsEx 1 = [("j1", "A"), ("j2", "B")] :=
  ⟨C2_cumulative_seed readBex [("p", "P")] [("j1", "A")] stats2ex ws2ex "w0.json" 10 0
      winsEx 1 (by decide) (by decide) (by decide) (by decide) winsEx_nodup,
    by decide⟩

/-- Instance of C3 on small bundles with one colliding key. -/
theorem C3_merge_assoc_idem_witness :
    bupdate (bupdate [("k", "0")] [("j1", "A"), ("j2", "B")]) [("j2", "C")] =
        bupdate [("k", "0")] (bupdate [("j1", "A"), ("j2", "B")] [("j2", "C")]) ∧
      bupdate (bupdate [("k", "0")] [("j1", "A"), ("j2", "B")]) [("j1", "A"), ("j2", "B")] =
        bupdate [("k", "0")] [("j1", "A"), ("j2", "B")] :=
  C3_merge_assoc_idem [("k", "0")] [("j1", "A"), ("j2", "B")] [("j2", "C")] (by decide)

/-- Instance of C4 on the empty window. -/
theorem C4_no_viable_candidate_witness :
    getBest ⟨[], [], []⟩ = none ∧ windowStep (fun _ => none) [] [] = none ∧
      window0Seed (fun _ => none) [] = none :=
  C4_no_viable_candidate (fun _ => none) [] [] ⟨[], [], []⟩ rfl rfl

/-- Instance of C5 on the `{42, 17, 17}` scenario: either collection order
selects run 1 with time 17. -/
theorem C5_order_insensitive_witness :
    (processStats stats5aex).bind getBest = (processStats stats5bex).bind getBest ∧
      (processStats stats5bex).bind getBest = some ("u1", 17, 1) :=
  ⟨C5_order_insensitive stats5aex stats5bex (by decide) (by decide), by decide⟩

/-- Instance of the amended C6. -/
theorem C6_sorted_except_traceFile_witness :
    ws6ex.totalSec.Pairwise keyLt ∧ ws6ex.meanUtil.Pairwise keyLt ∧
      ws6ex.traceFile.map Prod.fst = stats6ex.map RawStat.id :=
  C6_sorted_except_traceFile stats6ex ws6ex (by decide) (by decide)

/-- Instance of C7. -/
theorem C7_identical_key_sets_witness :
    (1 ∈ ws7ex.totalSec.map Prod.fst ↔ 1 ∈ ws7ex.traceFile.map Prod.fst) ∧
      (1 ∈ ws7ex.meanUtil.map Prod.fst ↔ 1 ∈ ws7ex.totalSec.map Prod.fst) :=
  C7_identical_key_sets stats7ex ws7ex (by decide) 1

/-- Instance of C9 on a one-task window with one worker: start task 0,
finish task 0, observe the barrier result. -/
theorem C9_pool_barrier_witness :
    countRunning 1 poolFinalEx ≤ 1 ∧
      (poolFinalEx.stats.map Prod.fst).Perm (List.range 1) ∧
      poolFinalEx.stats.length = 1 := by
  have h := C9_pool_barrier 1 1 poolOutEx poolFinalEx
    (Relation.ReflTransGen.tail
      (Relation.ReflTransGen.tail Relation.ReflTransGen.refl
        (PoolStep.start poolInit 0 (by decide) rfl (by decide)))
      (PoolStep.finish poolMidEx 0 (by decide) rfl))
  refine ⟨h.1, h.2 ?_⟩
  intro i hi
  have h0 : i = 0 := Nat.lt_one_iff.mp hi
  subst h0
  rfl

end NVON
